import Mathlib

/-!
Verification development for the LogiSys Pro route-optimization and
shipment-dispatch engine.

The repository sources under study are the React frontend (pages, the
`AdvancedDataTable` component, the performance utilities).  The Django
backend that owns the shipment state machine, the route optimizer, the
distance-matrix builder and the tracking ingestor is called through
`services/api` but its code is not among the studied sources; those
components are therefore modelled from the specification (each such
definition carries a doc comment starting with `Modelled from the spec:`).
Frontend functions (`filteredData` of `AdvancedDataTable`, `memoize` of the
performance utilities) are embedded directly from their source.
-/

namespace Logi

/-! ## Shared geometry -/

/-- A coordinate pair, the `Location` value type of the data model.
Coordinates are integers (the concrete scenarios of the spec only use
integral coordinates). -/
structure Location where
  lat : Int
  lng : Int
deriving DecidableEq, Repr

/-- Taxicab distance between two locations, used as the concrete
symmetric distance function in scenario evaluations. -/
def manhattanN (a b : Location) : Nat :=
  (a.lat - b.lat).natAbs + (a.lng - b.lng).natAbs

/-- `manhattanN` as an integer-valued cost, the shape the optimizer
consumes (a distance matrix entry). -/
def intDist (a b : Location) : Int := (manhattanN a b : Int)

/-! ## `AdvancedDataTable` search filter (embedded from the frontend source)

`filteredData` of `AdvancedDataTable` computes
`if (!searchable || !searchTerm) return data;` then filters rows by
`columns.some(column => String(item[column.key]).toLowerCase()
  .includes(searchTerm.toLowerCase()))`. -/

/-- Does `hay` start with `needle`?  Mirrors the prefix step of the
JavaScript substring test. -/
def startsWithSeq : List Char → List Char → Bool
  | [], _ => true
  | _ :: _, [] => false
  | a :: as, b :: bs => a == b && startsWithSeq as bs

/-- Does `hay` contain `needle` as a contiguous run?  Mirrors the
JavaScript `String.prototype.includes` test used by `filteredData`. -/
def containsSeq (needle : List Char) : List Char → Bool
  | [] => needle.isEmpty
  | hd :: tl => startsWithSeq needle (hd :: tl) || containsSeq needle tl

/-- `hay.includes(needle)` on strings. -/
def strIncludes (hay needle : String) : Bool := containsSeq needle.toList hay.toList

/-- One table row, as the stringified value it yields for each column key:
the source only ever reads `String(item[column.key])`. -/
def Row := String → String

/-- The per-row search predicate of `filteredData`:
`columns.some(column => String(item[column.key]).toLowerCase()
  .includes(searchTerm.toLowerCase()))`. -/
def rowMatches (columns : List String) (searchTerm : String) (item : Row) : Bool :=
  columns.any fun c => strIncludes ((item c).toLower) searchTerm.toLower

/-- `filteredData` of `AdvancedDataTable`: identity when search is off or
the term is empty (`!searchable || !searchTerm`), otherwise
`data.filter` with the case-insensitive containment predicate. -/
def filteredData (searchable : Bool) (searchTerm : String) (data : List Row)
    (columns : List String) : List Row :=
  if !searchable || searchTerm == "" then data
  else data.filter (rowMatches columns searchTerm)

/-- Containment of `needle` in `hay` as a structural property: some split of
`hay` exhibits `needle` as a contiguous run. -/
def SeqContains (needle hay : List Char) : Prop :=
  ∃ pre post, hay = pre ++ needle ++ post

/-- The search predicate, stated structurally: some column's stringified,
lowercased value contains the lowercased search term. -/
def RowMatchesSpec (columns : List String) (searchTerm : String) (item : Row) : Prop :=
  ∃ c ∈ columns, SeqContains searchTerm.toLower.toList ((item c).toLower.toList)

/-! ## `memoize` (embedded from the performance utilities source)

`memoize(fn, getKey = (...args) => JSON.stringify(args))` keeps a `Map`;
each call computes `key = getKey(...args)`, returns `cache.get(key)` on a
hit, and otherwise computes `fn(...args)`, stores it, and returns it. -/

/-- Lookup in the memoization cache, mirroring `cache.has`/`cache.get` of
the JavaScript `Map`. -/
def cacheGet [DecidableEq κ] : List (κ × β) → κ → Option β
  | [], _ => none
  | (k, v) :: rest, key => if key = k then some v else cacheGet rest key

/-- One call of the function returned by `memoize`.  Returns the value
handed to the caller, the cache after the call, and whether `fn` was
invoked (`false` exactly on a cache hit). -/
def memoizeCall [DecidableEq κ] (fn : α → β) (getKey : α → κ)
    (cache : List (κ × β)) (args : α) : β × List (κ × β) × Bool :=
  match cacheGet cache (getKey args) with
  | some v => (v, cache, false)
  | none => (fn args, (getKey args, fn args) :: cache, true)

/-! ## Shipment lifecycle (modelled from the spec)

The backend `update_status` endpoint the frontend calls through
`shipmentsAPI.updateStatus` is not among the studied sources; the state
machine below is modelled from spec section 4.3. -/

/-- Modelled from the spec: the shipment statuses of section 4.3 (the same
eight strings appear in the frontend's status filter). -/
inductive Status
  | draft
  | ready_for_pickup
  | in_transit
  | out_for_delivery
  | delivered
  | failed_delivery
  | cancelled
  | returned
deriving DecidableEq, Repr

/-- Modelled from the spec: `delivered`, `cancelled`, `returned` are
terminal. -/
def isTerminal : Status → Bool
  | .delivered => true
  | .cancelled => true
  | .returned => true
  | _ => false

/-- Modelled from the spec: the allowed transition table of section 4.3.
`in_transit → delivered` is included because section 4.4 has the tracking
ingestor trigger the `in_transit/out_for_delivery → delivered` transition
at the final stop. -/
def allowedTransition : Status → Status → Bool
  | .draft, .ready_for_pickup => true
  | .draft, .cancelled => true
  | .ready_for_pickup, .in_transit => true
  | .ready_for_pickup, .cancelled => true
  | .in_transit, .out_for_delivery => true
  | .in_transit, .failed_delivery => true
  | .in_transit, .returned => true
  | .in_transit, .delivered => true
  | .out_for_delivery, .delivered => true
  | .out_for_delivery, .failed_delivery => true
  | .out_for_delivery, .returned => true
  | _, _ => false

/-- The shipment state the status endpoint owns. -/
structure Shipment where
  id : Nat
  vehicleId : Nat
  status : Status
deriving DecidableEq, Repr

/-- Rejection reasons of a status-update request. -/
inductive TransitionError
  | invalidTransition (current target : Status)
  | vehicleUnavailable
deriving DecidableEq, Repr

/-- Modelled from the spec: the status-update handler behind
`POST /shipments/{id}/update_status`.  A pair not in the transition table
is rejected with `invalidTransition` naming current and requested status;
`ready_for_pickup → in_transit` re-validates the bound vehicle's
availability at transition time.  Returns the post-state shipment together
with the rejection, if any; on rejection the shipment is returned
unchanged. -/
def updateStatus (vehicleAvailable : Bool) (sh : Shipment) (target : Status) :
    Shipment × Option TransitionError :=
  if allowedTransition sh.status target then
    if sh.status = Status.ready_for_pickup ∧ target = Status.in_transit ∧
        vehicleAvailable = false then
      (sh, some TransitionError.vehicleUnavailable)
    else
      ({ sh with status := target }, none)
  else
    (sh, some (TransitionError.invalidTransition sh.status target))

/-! ## Tracking ingestor (modelled from the spec)

The websocket consumer behind `ws/tracking/{shipmentId}` is not among the
studied sources (the frontend `RealTimeTracker` only displays a mock
feed); the ingestor below is modelled from spec section 4.4. -/

/-- A location ping. -/
structure TrackingEvent where
  timestamp : Nat
  loc : Location
deriving DecidableEq, Repr

/-- Modelled from the spec: the per-shipment tracking state the ingestor
owns: current position, last computed ETA, the remaining unvisited stop
locations, and the appended timeline. -/
structure TrackState where
  position : Option Location
  eta : Option Nat
  remaining : List Location
  timeline : List TrackingEvent
deriving DecidableEq, Repr

/-- Timestamp of the shipment's last recorded event, if any. -/
def lastTimestamp (st : TrackState) : Option Nat :=
  st.timeline.getLast?.map TrackingEvent.timestamp

/-- Modelled from the spec: an event is applied only when its timestamp is
strictly greater than the last recorded event's. -/
def isNewer (st : TrackState) (e : TrackingEvent) : Bool :=
  match lastTimestamp st with
  | none => true
  | some t => decide (t < e.timestamp)

/-- Total distance of a path from a position through a stop sequence. -/
def pathDistN (d : Location → Location → Nat) : Location → List Location → Nat
  | _, [] => 0
  | pos, next :: rest => d pos next + pathDistN d next rest

/-- Modelled from the spec: applying an accepted event — update the
position, mark the next stop visited when the ping is within the proximity
threshold, recompute the ETA as remaining-route distance over the average
speed, and append the event to the timeline. -/
def applyEvent (d : Location → Location → Nat) (speed threshold : Nat)
    (st : TrackState) (e : TrackingEvent) : TrackState :=
  let remaining := match st.remaining with
    | [] => []
    | next :: rest => if d e.loc next ≤ threshold then rest else next :: rest
  { position := some e.loc,
    eta := some (pathDistN d e.loc remaining / max speed 1),
    remaining := remaining,
    timeline := st.timeline ++ [e] }

/-- Modelled from the spec: `ingest(shipmentId, event)` — accept and apply
the event only when it is strictly newer than the last recorded one,
otherwise discard it and leave the state untouched
(`accepted = false`). -/
def ingest (d : Location → Location → Nat) (speed threshold : Nat)
    (st : TrackState) (e : TrackingEvent) : TrackState × Bool :=
  if isNewer st e then (applyEvent d speed threshold st e, true) else (st, false)

/-! ## Distance-matrix builder (modelled from the spec) -/

/-- A matrix cell: travel distance and duration. -/
structure DistDuration where
  meters : Nat
  seconds : Nat
deriving DecidableEq, Repr

/-- Modelled from the spec: the geodesic fallback estimate — an
integer-valued stand-in for the haversine great-circle distance with a
fixed average-speed duration. -/
def geodesicApprox (a b : Location) : DistDuration :=
  ⟨manhattanN a b, manhattanN a b / 10 + 1⟩

/-- One matrix entry: the external provider's answer when it has one,
otherwise the geodesic fallback flagged as approximate. -/
def entryFor (provider : Location → Location → Option DistDuration)
    (a b : Location) : DistDuration × Bool :=
  match provider a b with
  | some dd => (dd, false)
  | none => (geodesicApprox a b, true)

/-- The builder's output: the pairwise matrix and the `approximate`
flag. -/
structure MatrixResult where
  entries : List (List DistDuration)
  approximate : Bool
deriving Repr

/-- Modelled from the spec: `DistanceMatrixBuilder.build` — a total
function; a provider failure on any pair degrades that entry to the
geodesic fallback and sets `approximate := true`, and no failure escapes
to the caller. -/
def build (provider : Location → Location → Option DistDuration)
    (locations : List Location) : MatrixResult :=
  let rows := locations.map fun a => locations.map fun b => entryFor provider a b
  { entries := rows.map fun row => row.map Prod.fst,
    approximate := rows.any fun row => row.any Prod.snd }

/-! ## Route optimizer (modelled from the spec)

The `POST /optimize` backend is not among the studied sources (the
frontend `handleRouteOptimization` only shows a mock); the optimizer below
is modelled from spec section 4.2: cheapest-insertion construction under
hard capacity constraints, then a bounded, deterministic first-improvement
local search over relocate and 2-opt moves, with the time budget modelled
as an iteration bound. -/

/-- An order as the optimizer reads it: destination and demand on the
three capacity dimensions. -/
structure Order where
  id : Nat
  dest : Location
  weight : Nat
  volume : Nat
  items : Nat
deriving DecidableEq, Repr

/-- A vehicle as the optimizer reads it: capacity on the three dimensions
and the depot anchoring its route. -/
structure Vehicle where
  id : Nat
  maxWeight : Nat
  maxVolume : Nat
  maxItems : Nat
  depot : Location
deriving DecidableEq, Repr

/-- One vehicle's route: the delivery sequence between the depot
departure and the depot return. -/
structure Route where
  vehicle : Vehicle
  stops : List Order
deriving DecidableEq, Repr

/-- Total weight carried by a stop list. -/
def loadWeight (orders : List Order) : Nat := (orders.map Order.weight).sum

/-- Total volume carried by a stop list. -/
def loadVolume (orders : List Order) : Nat := (orders.map Order.volume).sum

/-- Total item count carried by a stop list. -/
def loadItems (orders : List Order) : Nat := (orders.map Order.items).sum

/-- The capacity check on all three dimensions at once. -/
def fitsCapacity (v : Vehicle) (orders : List Order) : Bool :=
  decide (loadWeight orders ≤ v.maxWeight) &&
    (decide (loadVolume orders ≤ v.maxVolume) &&
      decide (loadItems orders ≤ v.maxItems))

/-- Insert an element at a position (appending when the position runs past
the end). -/
def insertAt : List α → Nat → α → List α
  | xs, 0, a => a :: xs
  | [], _ + 1, a => [a]
  | x :: xs, n + 1, a => x :: insertAt xs n a

/-- Remove the element at a position, returning it and the remainder. -/
def removeAt : List α → Nat → Option (α × List α)
  | [], _ => none
  | x :: xs, 0 => some (x, xs)
  | x :: xs, n + 1 => (removeAt xs n).map fun q => (q.1, x :: q.2)

/-- Rewrite the element at a position in place. -/
def updateAt : List α → Nat → (α → α) → List α
  | [], _, _ => []
  | x :: xs, 0, f => f x :: xs
  | x :: xs, n + 1, f => x :: updateAt xs n f

/-- Reverse the segment `[a, b)` of a list (the 2-opt move body). -/
def reverseSegment (xs : List α) (a b : Nat) : List α :=
  xs.take a ++ ((xs.drop a).take (b - a)).reverse ++ xs.drop b

/-- Cost of travelling from a position through a stop sequence. -/
def pathCost (d : Location → Location → Int) : Location → List Location → Int
  | _, [] => 0
  | prev, next :: rest => d prev next + pathCost d next rest

/-- Cost of one route: depot, the stops in order, back to the depot. -/
def routeCost (d : Location → Location → Int) (r : Route) : Int :=
  pathCost d r.vehicle.depot (r.stops.map Order.dest ++ [r.vehicle.depot])

/-- Cost of a whole solution. -/
def totalCost (d : Location → Location → Int) (routes : List Route) : Int :=
  (routes.map (routeCost d)).sum

/-- A route with its stop list replaced. -/
def setStops (stops : List Order) (r : Route) : Route := { r with stops := stops }

/-- Added cost of inserting an order into a route at a position. -/
def extraCost (d : Location → Location → Int) (r : Route) (o : Order) (pos : Nat) : Int :=
  routeCost d (setStops (insertAt r.stops pos o) r) - routeCost d r

/-- Deterministic argmin over candidate `(position, cost)` pairs: strictly
smaller cost wins, so the earliest listed candidate wins ties. -/
def chooseMin : (Nat × Int) → List (Nat × Int) → (Nat × Int)
  | best, [] => best
  | best, c :: rest => chooseMin (if c.2 < best.2 then c else best) rest

/-- Cheapest feasible insertion position of an order into a route: `none`
when capacity on some dimension would be exceeded, otherwise the position
of least added cost (lowest position on ties). -/
def bestPosition (d : Location → Location → Int) (r : Route) (o : Order) :
    Option (Nat × Int) :=
  if fitsCapacity r.vehicle (o :: r.stops) then
    some (chooseMin (0, extraCost d r o 0)
      ((List.range r.stops.length).map fun i => (i + 1, extraCost d r o (i + 1))))
  else none

/-- Cheapest feasible insertion of an order across all routes, earliest
route winning ties: the updated route list and the added cost, or `none`
when the order fits no vehicle. -/
def insertBest (d : Location → Location → Int) (o : Order) :
    List Route → Option (List Route × Int)
  | [] => none
  | r :: rest =>
    match bestPosition d r o, insertBest d o rest with
    | none, none => none
    | some (p, c), none => some (setStops (insertAt r.stops p o) r :: rest, c)
    | none, some (rest', c') => some (r :: rest', c')
    | some (p, c), some (rest', c') =>
      if c ≤ c' then some (setStops (insertAt r.stops p o) r :: rest, c)
      else some (r :: rest', c')

/-- One construction step: place the next order by cheapest feasible
insertion, or append it to `unassigned` when it fits nowhere. -/
def constructStep (d : Location → Location → Int)
    (acc : List Route × List Order) (o : Order) : List Route × List Order :=
  match insertBest d o acc.1 with
  | some (routes, _) => (routes, acc.2)
  | none => (acc.1, acc.2 ++ [o])

/-- The construction phase: empty routes anchored at each vehicle's depot,
then cheapest insertion order by order. -/
def construct (d : Location → Location → Int) (vehicles : List Vehicle)
    (orders : List Order) : List Route × List Order :=
  orders.foldl (constructStep d) (vehicles.map fun v => { vehicle := v, stops := [] }, [])

/-- Every order currently assigned across the routes. -/
def allOrders (routes : List Route) : List Order := routes.flatMap Route.stops

/-- A relocate move: take the order at position `j` of route `i` and
re-insert it at position `p` of route `k`, if the target vehicle's
capacity allows it. -/
def relocate (routes : List Route) (i j k p : Nat) : Option (List Route) :=
  match routes.get? i with
  | none => none
  | some ri =>
    match removeAt ri.stops j with
    | none => none
    | some (o, rest) =>
      let pruned := updateAt routes i (setStops rest)
      match pruned.get? k with
      | none => none
      | some rk =>
        if fitsCapacity rk.vehicle (o :: rk.stops) then
          some (updateAt pruned k fun r => setStops (insertAt r.stops p o) r)
        else none

/-- A 2-opt move: reverse the segment `[a, b)` of route `i`'s stops. -/
def twoOpt (routes : List Route) (i a b : Nat) : Option (List Route) :=
  match routes.get? i with
  | none => none
  | some _ =>
    if a ≤ b then
      some (updateAt routes i fun r => setStops (reverseSegment r.stops a b) r)
    else none

/-- All relocate results, enumerated in a fixed deterministic order. -/
def relocCandidates (routes : List Route) : List (List Route) :=
  (List.range routes.length).flatMap fun i =>
    (List.range ((allOrders routes).length + 1)).flatMap fun j =>
      (List.range routes.length).flatMap fun k =>
        (List.range ((allOrders routes).length + 1)).filterMap fun p =>
          relocate routes i j k p

/-- All 2-opt results, enumerated in a fixed deterministic order. -/
def twoOptCandidates (routes : List Route) : List (List Route) :=
  (List.range routes.length).flatMap fun i =>
    (List.range ((allOrders routes).length + 1)).flatMap fun a =>
      (List.range ((allOrders routes).length + 1)).filterMap fun b =>
        twoOpt routes i a b

/-- One improvement step: the first move in the fixed enumeration that
strictly reduces total cost, or `none` at a local optimum. -/
def improveStep (d : Location → Location → Int) (routes : List Route) :
    Option (List Route) :=
  (relocCandidates routes ++ twoOptCandidates routes).find? fun rs =>
    decide (totalCost d rs < totalCost d routes)

/-- The improvement phase: apply first-improvement steps until the
iteration budget is spent or no improving move remains. -/
def improve (d : Location → Location → Int) : Nat → List Route → List Route
  | 0, routes => routes
  | fuel + 1, routes =>
    match improveStep d routes with
    | none => routes
    | some routes' => improve d fuel routes'

/-- The optimizer's output: one route per vehicle plus the orders no
vehicle could serve. -/
structure OptimizeResult where
  routes : List Route
  unassigned : List Order
deriving DecidableEq, Repr

/-- Modelled from the spec: `optimize(orders, vehicles, matrix,
time_budget)` — cheapest-insertion construction, then bounded
deterministic improvement; infeasible orders are reported in
`unassigned`, never dropped or raised as an error. -/
def optimize (d : Location → Location → Int) (fuel : Nat)
    (vehicles : List Vehicle) (orders : List Order) : OptimizeResult :=
  { routes := improve d fuel (construct d vehicles orders).1,
    unassigned := (construct d vehicles orders).2 }

/-- A persisted route stop: sequence index and location. -/
structure RouteStop where
  seq : Nat
  loc : Location
deriving DecidableEq, Repr

/-- The location sequence of a route: depot departure, each delivery
destination in order, depot return. -/
def stopLocations (r : Route) : List Location :=
  r.vehicle.depot :: (r.stops.map Order.dest ++ [r.vehicle.depot])

/-- Number a location sequence with consecutive indices from `i`. -/
def numberStops : Nat → List Location → List RouteStop
  | _, [] => []
  | i, l :: rest => ⟨i, l⟩ :: numberStops (i + 1) rest

/-- Modelled from the spec: the `RouteStop` records the dispatch assigner
persists for a route, numbered from the depot departure at index 0. -/
def buildStops (r : Route) : List RouteStop := numberStops 0 (stopLocations r)

/-! ## Concrete scenario inputs -/

/-- The single vehicle of the overload scenario: 100 kg, 1.0 cubic metre
(in litres), 20 items, depot at the origin. -/
def demoVehicle : Vehicle :=
  { id := 1, maxWeight := 100, maxVolume := 1000, maxItems := 20, depot := ⟨0, 0⟩ }

/-- The three orders of the overload scenario: total demand 120 kg against
100 kg of fleet capacity. -/
def demoOrders : List Order :=
  [ { id := 1, dest := ⟨0, 1⟩, weight := 40, volume := 300, items := 5 },
    { id := 2, dest := ⟨1, 0⟩, weight := 30, volume := 200, items := 4 },
    { id := 3, dest := ⟨1, 1⟩, weight := 50, volume := 400, items := 6 } ]

/-- The single order of the depot-anchoring scenario, destination (0, 1). -/
def singleOrder : Order := { id := 1, dest := ⟨0, 1⟩, weight := 10, volume := 100, items := 1 }

/-- A fresh tracking state: nothing recorded yet, one remaining stop. -/
def demoTrackState : TrackState :=
  { position := none, eta := none, remaining := [⟨0, 1⟩], timeline := [] }

/-- A concrete ping used to exercise the ingestor. -/
def demoEvent : TrackingEvent := { timestamp := 5, loc := ⟨0, 1⟩ }

/-- A concrete search term used to exercise the table filter. -/
def demoTerm : String := "x"

/-! ## Substring containment: the executable test agrees with the
structural property -/

theorem startsWithSeq_iff (needle : List Char) :
    ∀ hay, startsWithSeq needle hay = true ↔ ∃ t, hay = needle ++ t := by
  induction needle with
  | nil => intro hay; simp [startsWithSeq]
  | cons a as ih =>
    intro hay
    cases hay with
    | nil => simp [startsWithSeq]
    | cons b bs =>
      simp only [startsWithSeq, Bool.and_eq_true, beq_iff_eq, ih, List.cons_append,
        List.cons.injEq]
      constructor
      · rintro ⟨rfl, t, rfl⟩; exact ⟨t, rfl, rfl⟩
      · rintro ⟨t, rfl, rfl⟩; exact ⟨rfl, t, rfl⟩

theorem containsSeq_iff (needle : List Char) :
    ∀ hay, containsSeq needle hay = true ↔ SeqContains needle hay := by
  intro hay
  induction hay with
  | nil =>
    simp only [containsSeq, SeqContains, List.isEmpty_iff]
    constructor
    · rintro rfl; exact ⟨[], [], rfl⟩
    · rintro ⟨pre, post, h⟩
      rcases List.append_eq_nil.mp h.symm with ⟨h₁, _⟩
      exact (List.append_eq_nil.mp h₁).2
  | cons hd tl ih =>
    simp only [containsSeq, Bool.or_eq_true, ih, startsWithSeq_iff, SeqContains]
    constructor
    · rintro (⟨t, ht⟩ | ⟨pre, post, htl⟩)
      · exact ⟨[], t, by simpa using ht⟩
      · exact ⟨hd :: pre, post, by simp [htl]⟩
    · rintro ⟨pre, post, h⟩
      cases pre with
      | nil => exact Or.inl ⟨post, by simpa using h⟩
      | cons p ps =>
        right
        rw [List.cons_append, List.cons_append] at h
        injection h with h1 h2
        exact ⟨ps, post, h2⟩

/-- C9: `filteredData` of `AdvancedDataTable` is the identity when search
is off or the term is empty, and otherwise keeps exactly the rows, in
their original order, whose stringified value in at least one column
contains the search term case-insensitively. -/
theorem filteredData_characterization (searchable : Bool) (searchTerm : String)
    (data : List Row) (columns : List String) :
    ((searchable = false ∨ searchTerm = "") →
      filteredData searchable searchTerm data columns = data)
    ∧ (filteredData searchable searchTerm data columns).Sublist data
    ∧ (searchable = true → searchTerm ≠ "" → ∀ item : Row,
        item ∈ filteredData searchable searchTerm data columns ↔
          item ∈ data ∧ RowMatchesSpec columns searchTerm item) := by
  have hmatch : ∀ item : Row, rowMatches columns searchTerm item = true ↔
      RowMatchesSpec columns searchTerm item := by
    intro item
    simp [rowMatches, List.any_eq_true, strIncludes, containsSeq_iff, RowMatchesSpec]
  refine ⟨?_, ?_, ?_⟩
  · rintro (rfl | rfl) <;> simp [filteredData]
  · unfold filteredData
    split
    · exact List.Sublist.refl data
    · exact List.filter_sublist data
  · intro hs hne item
    subst hs
    have hcond : (!true || searchTerm == "") = false := by
      simp [hne]
    rw [filteredData, hcond]
    simp only [Bool.false_eq_true, if_false, List.mem_filter, hmatch]

theorem filteredData_characterization_witness :
    filteredData false demoTerm ([] : List Row) [] = ([] : List Row) :=
  (filteredData_characterization false demoTerm [] []).1 (Or.inl rfl)

/-- C10: `memoize` is transparent and caches — starting from the empty
cache, the first call invokes `fn` and returns exactly `fn args` while
storing it under `getKey args`; a second call whose arguments map to the
same cache key does not invoke `fn` again and returns the value cached by
the first call. -/
theorem memoize_caches {α β κ : Type} [DecidableEq κ] (fn : α → β) (getKey : α → κ)
    (a₁ a₂ : α) (hkey : getKey a₂ = getKey a₁) :
    memoizeCall fn getKey [] a₁ = (fn a₁, [(getKey a₁, fn a₁)], true)
    ∧ memoizeCall fn getKey (memoizeCall fn getKey [] a₁).2.1 a₂
        = (fn a₁, [(getKey a₁, fn a₁)], false) := by
  refine ⟨rfl, ?_⟩
  simp [memoizeCall, cacheGet, hkey]

theorem memoize_caches_witness :
    memoizeCall Nat.succ (fun n => n) ((memoizeCall Nat.succ (fun n => n) [] 3).2.1) 3
      = (4, [(3, 4)], false) :=
  (memoize_caches Nat.succ (fun n => n) 3 3 rfl).2

/-! ## Shipment lifecycle theorems -/

/-- C1: a status-update request for a (current, requested) pair outside
the allowed transition table is rejected with `invalidTransition` naming
both statuses and leaves the shipment unchanged; and every terminal
status (`delivered`, `cancelled`, `returned`) has no outgoing edge in the
table, so every request from a terminal status is so rejected. -/
theorem invalidTransition_rejected (vehicleAvailable : Bool) (sh : Shipment)
    (target : Status) (h : allowedTransition sh.status target = false) :
    updateStatus vehicleAvailable sh target
      = (sh, some (TransitionError.invalidTransition sh.status target))
    ∧ ∀ s t : Status, isTerminal s = true → allowedTransition s t = false := by
  constructor
  · simp [updateStatus, h]
  · intro s t hs
    cases s <;> cases t <;> simp_all [isTerminal, allowedTransition]

theorem invalidTransition_rejected_witness :
    updateStatus true ⟨1, 1, Status.delivered⟩ Status.in_transit
      = (⟨1, 1, Status.delivered⟩,
          some (TransitionError.invalidTransition Status.delivered Status.in_transit)) :=
  (invalidTransition_rejected true ⟨1, 1, Status.delivered⟩ Status.in_transit (by decide)).1

/-- C6: `ready_for_pickup → in_transit` re-validates the bound vehicle's
availability at transition time — with the vehicle unavailable the request
is rejected and the shipment stays `ready_for_pickup`, and with the
vehicle available the same request succeeds. -/
theorem dispatch_revalidates_vehicle (sh : Shipment)
    (h : sh.status = Status.ready_for_pickup) :
    updateStatus false sh Status.in_transit = (sh, some TransitionError.vehicleUnavailable)
    ∧ updateStatus true sh Status.in_transit
        = ({ sh with status := Status.in_transit }, none) := by
  constructor <;> simp [updateStatus, h, allowedTransition]

theorem dispatch_revalidates_vehicle_witness :
    updateStatus false ⟨2, 7, Status.ready_for_pickup⟩ Status.in_transit
      = (⟨2, 7, Status.ready_for_pickup⟩, some TransitionError.vehicleUnavailable) :=
  (dispatch_revalidates_vehicle ⟨2, 7, Status.ready_for_pickup⟩ rfl).1

/-! ## Tracking ingestor theorems -/

theorem ingest_accepted_iff (d : Location → Location → Nat) (speed threshold : Nat)
    (st : TrackState) (e : TrackingEvent) :
    (ingest d speed threshold st e).2 = true ↔ isNewer st e = true := by
  unfold ingest
  split <;> simp_all

theorem lastTimestamp_applyEvent (d : Location → Location → Nat) (speed threshold : Nat)
    (st : TrackState) (e : TrackingEvent) :
    lastTimestamp (applyEvent d speed threshold st e) = some e.timestamp := by
  simp [lastTimestamp, applyEvent, List.getLast?_concat]

/-- C2: tracking ingestion accepts an event exactly when its timestamp is
strictly greater than the shipment's last recorded event, and after an
accepted event every replay of it — or of any event no newer than it —
returns `accepted = false` and leaves the whole state (position, ETA,
remaining stops, timeline) exactly as after the first accepted
occurrence. -/
theorem tracking_ingest_idempotent (d : Location → Location → Nat)
    (speed threshold : Nat) (st : TrackState) (e e' : TrackingEvent) :
    ((ingest d speed threshold st e).2 = true ↔
        ∀ t, lastTimestamp st = some t → t < e.timestamp)
    ∧ ((ingest d speed threshold st e).2 = true → e'.timestamp ≤ e.timestamp →
        ingest d speed threshold (ingest d speed threshold st e).1 e' =
          ((ingest d speed threshold st e).1, false)) := by
  constructor
  · rw [ingest_accepted_iff]
    cases h : lastTimestamp st with
    | none => simp [isNewer, h]
    | some t => simp [isNewer, h]
  · intro hacc hle
    have hnew : isNewer st e = true := (ingest_accepted_iff d speed threshold st e).mp hacc
    have hfst : (ingest d speed threshold st e).1 = applyEvent d speed threshold st e := by
      simp [ingest, hnew]
    rw [hfst]
    have hstale : isNewer (applyEvent d speed threshold st e) e' = false := by
      simp only [isNewer, lastTimestamp_applyEvent, decide_eq_false_iff_not]
      omega
    simp [ingest, hstale]

theorem tracking_ingest_idempotent_witness :
    ingest manhattanN 1 0 (ingest manhattanN 1 0 demoTrackState demoEvent).1 demoEvent =
      ((ingest manhattanN 1 0 demoTrackState demoEvent).1, false) :=
  (tracking_ingest_idempotent manhattanN 1 0 demoTrackState demoEvent demoEvent).2
    (by decide) (Nat.le_refl _)

/-! ## Distance-matrix builder theorems -/

/-- C8: when the external provider fails on a pair, `build` still returns
a matrix (it is a total function, so no failure propagates): the failed
pair's entry is the geodesic fallback and the result is flagged
`approximate = true`. -/
theorem build_provider_fallback (provider : Location → Location → Option DistDuration)
    (locations : List Location) (i j : Nat) (a b : Location)
    (hi : locations.get? i = some a) (hj : locations.get? j = some b)
    (hfail : provider a b = none) :
    (∃ row, (build provider locations).entries.get? i = some row ∧
        row.get? j = some (geodesicApprox a b))
    ∧ (build provider locations).approximate = true := by
  have hi' : locations[i]? = some a := by rw [← List.get?_eq_getElem?]; exact hi
  have hj' : locations[j]? = some b := by rw [← List.get?_eq_getElem?]; exact hj
  constructor
  · refine ⟨(locations.map fun y => entryFor provider a y).map Prod.fst, ?_, ?_⟩
    · simp [build, hi']
    · simp [hj', entryFor, hfail]
  · have ha : a ∈ locations := List.get?_mem hi
    have hb : b ∈ locations := List.get?_mem hj
    simp only [build, List.any_eq_true]
    refine ⟨locations.map fun y => entryFor provider a y, List.mem_map_of_mem _ ha, ?_⟩
    exact ⟨entryFor provider a b, List.mem_map_of_mem _ hb, by simp [entryFor, hfail]⟩

theorem build_provider_fallback_witness :
    (∃ row, (build (fun _ _ => none) [⟨0, 0⟩, ⟨0, 1⟩]).entries.get? 0 = some row ∧
        row.get? 1 = some (geodesicApprox ⟨0, 0⟩ ⟨0, 1⟩))
    ∧ (build (fun _ _ => none) [⟨0, 0⟩, ⟨0, 1⟩]).approximate = true :=
  build_provider_fallback (fun _ _ => none) [⟨0, 0⟩, ⟨0, 1⟩] 0 1 ⟨0, 0⟩ ⟨0, 1⟩ rfl rfl rfl

/-! ## Optimizer: list-surgery lemmas -/

theorem insertAt_perm {α : Type} (a : α) :
    ∀ (xs : List α) (n : Nat), (insertAt xs n a).Perm (a :: xs) := by
  intro xs
  induction xs with
  | nil =>
    intro n
    cases n with
    | zero => exact List.Perm.refl _
    | succ m => exact List.Perm.refl _
  | cons x xs ih =>
    intro n
    cases n with
    | zero => exact List.Perm.refl _
    | succ m =>
      simp only [insertAt]
      exact ((ih m).cons x).trans (List.Perm.swap a x xs)

theorem removeAt_perm {α : Type} :
    ∀ (xs : List α) (n : Nat) (a : α) (rest : List α),
    removeAt xs n = some (a, rest) → xs.Perm (a :: rest) := by
  intro xs
  induction xs with
  | nil => intro n a rest h; simp [removeAt] at h
  | cons x xs ih =>
    intro n a rest h
    cases n with
    | zero =>
      simp only [removeAt, Option.some.injEq, Prod.mk.injEq] at h
      obtain ⟨rfl, rfl⟩ := h
      exact List.Perm.refl _
    | succ m =>
      simp only [removeAt, Option.map_eq_some'] at h
      obtain ⟨⟨a', rest'⟩, hrec, heq⟩ := h
      injection heq with h1 h2
      subst h1
      subst h2
      exact ((ih m a' rest' hrec).cons x).trans (List.Perm.swap a' x rest')

theorem fitsCapacity_perm (v : Vehicle) {xs ys : List Order} (h : xs.Perm ys) :
    fitsCapacity v xs = fitsCapacity v ys := by
  have h1 : loadWeight xs = loadWeight ys := (h.map Order.weight).sum_eq
  have h2 : loadVolume xs = loadVolume ys := (h.map Order.volume).sum_eq
  have h3 : loadItems xs = loadItems ys := (h.map Order.items).sum_eq
  simp [fitsCapacity, h1, h2, h3]

theorem fitsCapacity_of_perm_cons {v : Vehicle} {xs : List Order} {o : Order}
    {rest : List Order} (hperm : xs.Perm (o :: rest))
    (hfit : fitsCapacity v xs = true) : fitsCapacity v rest = true := by
  rw [fitsCapacity_perm v hperm] at hfit
  simp only [fitsCapacity, loadWeight, loadVolume, loadItems, List.map_cons, List.sum_cons,
    Bool.and_eq_true, decide_eq_true_eq] at hfit ⊢
  omega

theorem updateAt_forall {α : Type} {P : α → Prop} :
    ∀ (xs : List α) (i : Nat) (f : α → α),
    (∀ x ∈ xs, P x) → (∀ xi, xs.get? i = some xi → P (f xi)) →
    ∀ y ∈ updateAt xs i f, P y := by
  intro xs
  induction xs with
  | nil => intro i f _ _ y hy; simp [updateAt] at hy
  | cons x xs ih =>
    intro i f hall hf y hy
    cases i with
    | zero =>
      simp only [updateAt] at hy
      rcases List.mem_cons.mp hy with rfl | hy
      · exact hf x rfl
      · exact hall y (List.mem_cons_of_mem x hy)
    | succ m =>
      simp only [updateAt] at hy
      rcases List.mem_cons.mp hy with rfl | hy
      · exact hall y (List.mem_cons_self y xs)
      · exact ih m f (fun z hz => hall z (List.mem_cons_of_mem x hz)) hf y hy

theorem allOrders_updateAt_count :
    ∀ (routes : List Route) (i : Nat) (ri : Route) (f : Route → Route) (a : Order),
    routes.get? i = some ri →
    (allOrders (updateAt routes i f)).count a + ri.stops.count a
      = ((f ri).stops).count a + (allOrders routes).count a := by
  intro routes
  induction routes with
  | nil => intro i ri f a h; simp [List.get?] at h
  | cons r rs ih =>
    intro i ri f a h
    cases i with
    | zero =>
      simp only [List.get?, Option.some.injEq] at h
      subst h
      simp only [updateAt, allOrders, List.flatMap_cons, List.count_append]
      omega
    | succ m =>
      simp only [List.get?] at h
      have := ih m ri f a h
      simp only [updateAt, allOrders, List.flatMap_cons, List.count_append] at this ⊢
      omega

theorem updateAt_map_vehicle :
    ∀ (xs : List Route) (i : Nat) (f : Route → Route),
    (∀ r, (f r).vehicle = r.vehicle) →
    (updateAt xs i f).map Route.vehicle = xs.map Route.vehicle := by
  intro xs
  induction xs with
  | nil => intro i f _; rfl
  | cons x xs ih =>
    intro i f hf
    cases i with
    | zero => simp [updateAt, hf x]
    | succ m => simp [updateAt, ih m f hf]

/-! ## Optimizer: construction-phase lemmas -/

theorem bestPosition_fits {d : Location → Location → Int} {r : Route} {o : Order}
    {p : Nat} {c : Int} (h : bestPosition d r o = some (p, c)) :
    fitsCapacity r.vehicle (o :: r.stops) = true := by
  cases hf : fitsCapacity r.vehicle (o :: r.stops) with
  | true => rfl
  | false => simp [bestPosition, hf] at h

theorem insertBest_spec (d : Location → Location → Int) (o : Order) :
    ∀ (routes rs : List Route) (c : Int), insertBest d o routes = some (rs, c) →
    ((∀ r ∈ routes, fitsCapacity r.vehicle r.stops = true) →
        ∀ r ∈ rs, fitsCapacity r.vehicle r.stops = true)
    ∧ (∀ a : Order, (allOrders rs).count a = (o :: allOrders routes).count a)
    ∧ rs.map Route.vehicle = routes.map Route.vehicle := by
  intro routes
  induction routes with
  | nil => intro rs c h; simp [insertBest] at h
  | cons r rest ih =>
    intro rs c h
    have hins : ∀ p c₀, bestPosition d r o = some (p, c₀) →
        rs = setStops (insertAt r.stops p o) r :: rest →
        ((∀ x ∈ r :: rest, fitsCapacity x.vehicle x.stops = true) →
            ∀ x ∈ rs, fitsCapacity x.vehicle x.stops = true)
        ∧ (∀ a : Order, (allOrders rs).count a = (o :: allOrders (r :: rest)).count a)
        ∧ rs.map Route.vehicle = (r :: rest).map Route.vehicle := by
      intro p c₀ hbp hrs
      subst hrs
      have hperm := insertAt_perm o r.stops p
      refine ⟨?_, ?_, ?_⟩
      · intro hall x hx
        rcases List.mem_cons.mp hx with rfl | hx
        · show fitsCapacity r.vehicle (insertAt r.stops p o) = true
          rw [fitsCapacity_perm r.vehicle hperm]
          exact bestPosition_fits hbp
        · exact hall x (List.mem_cons_of_mem r hx)
      · intro a
        have hc := hperm.count_eq a
        simp only [allOrders, List.flatMap_cons, List.count_append, setStops,
          List.count_cons] at hc ⊢
        omega
      · simp [setStops]
    have hskip : ∀ rest' c', insertBest d o rest = some (rest', c') →
        rs = r :: rest' →
        ((∀ x ∈ r :: rest, fitsCapacity x.vehicle x.stops = true) →
            ∀ x ∈ rs, fitsCapacity x.vehicle x.stops = true)
        ∧ (∀ a : Order, (allOrders rs).count a = (o :: allOrders (r :: rest)).count a)
        ∧ rs.map Route.vehicle = (r :: rest).map Route.vehicle := by
      intro rest' c' hrec hrs
      subst hrs
      obtain ⟨tinv, tcount, tveh⟩ := ih rest' c' hrec
      refine ⟨?_, ?_, ?_⟩
      · intro hall x hx
        rcases List.mem_cons.mp hx with rfl | hx
        · exact hall x (List.mem_cons_self x rest)
        · exact tinv (fun z hz => hall z (List.mem_cons_of_mem r hz)) x hx
      · intro a
        have := tcount a
        simp only [allOrders, List.flatMap_cons, List.count_append, List.count_cons] at this ⊢
        omega
      · simp [tveh]
    cases hbp : bestPosition d r o with
    | none =>
      cases hrec : insertBest d o rest with
      | none => simp [insertBest, hbp, hrec] at h
      | some q =>
        obtain ⟨rest', c'⟩ := q
        simp only [insertBest, hbp, hrec, Option.some.injEq, Prod.mk.injEq] at h
        exact hskip rest' c' hrec h.1.symm
    | some q =>
      obtain ⟨p, c₀⟩ := q
      cases hrec : insertBest d o rest with
      | none =>
        simp only [insertBest, hbp, hrec, Option.some.injEq, Prod.mk.injEq] at h
        exact hins p c₀ hbp h.1.symm
      | some q' =>
        obtain ⟨rest', c'⟩ := q'
        simp only [insertBest, hbp, hrec] at h
        by_cases hle : c₀ ≤ c'
        · rw [if_pos hle] at h
          simp only [Option.some.injEq, Prod.mk.injEq] at h
          exact hins p c₀ hbp h.1.symm
        · rw [if_neg hle] at h
          simp only [Option.some.injEq, Prod.mk.injEq] at h
          exact hskip rest' c' hrec h.1.symm

theorem construct_fold_spec (d : Location → Location → Int) :
    ∀ (orders : List Order) (acc : List Route × List Order),
    ((∀ r ∈ acc.1, fitsCapacity r.vehicle r.stops = true) →
        ∀ r ∈ (orders.foldl (constructStep d) acc).1, fitsCapacity r.vehicle r.stops = true)
    ∧ (∀ a : Order,
        (allOrders (orders.foldl (constructStep d) acc).1).count a
            + ((orders.foldl (constructStep d) acc).2).count a
          = (allOrders acc.1).count a + acc.2.count a + orders.count a)
    ∧ ((orders.foldl (constructStep d) acc).1).map Route.vehicle
        = acc.1.map Route.vehicle := by
  intro orders
  induction orders with
  | nil =>
    intro acc
    exact ⟨fun hx => hx, fun a => by simp, rfl⟩
  | cons o os ih =>
    intro acc
    simp only [List.foldl_cons]
    cases hins : insertBest d o acc.1 with
    | none =>
      have hstep : constructStep d acc o = (acc.1, acc.2 ++ [o]) := by
        simp [constructStep, hins]
      rw [hstep]
      obtain ⟨iinv, icount, iveh⟩ := ih (acc.1, acc.2 ++ [o])
      refine ⟨iinv, ?_, iveh⟩
      intro a
      have h1 := icount a
      simp only [List.count_append, List.count_cons, List.count_nil] at h1 ⊢
      omega
    | some q =>
      obtain ⟨routes', c⟩ := q
      have hstep : constructStep d acc o = (routes', acc.2) := by
        simp [constructStep, hins]
      rw [hstep]
      obtain ⟨sinv, scount, sveh⟩ := insertBest_spec d o acc.1 routes' c hins
      obtain ⟨iinv, icount, iveh⟩ := ih (routes', acc.2)
      refine ⟨fun hall => iinv (sinv hall), ?_, iveh.trans sveh⟩
      intro a
      have h1 := icount a
      have h2 := scount a
      simp only [List.count_cons] at h1 h2 ⊢
      omega

theorem allOrders_empty_routes (vehicles : List Vehicle) :
    allOrders (vehicles.map fun v => ({ vehicle := v, stops := [] } : Route)) = [] := by
  induction vehicles with
  | nil => rfl
  | cons v vs ihv =>
    have hcons : allOrders ((v :: vs).map fun v => ({ vehicle := v, stops := [] } : Route))
        = allOrders (vs.map fun v => ({ vehicle := v, stops := [] } : Route)) := by
      simp [allOrders]
    rw [hcons, ihv]

theorem construct_spec (d : Location → Location → Int) (vehicles : List Vehicle)
    (orders : List Order) :
    (∀ r ∈ (construct d vehicles orders).1, fitsCapacity r.vehicle r.stops = true)
    ∧ (∀ a : Order, (allOrders (construct d vehicles orders).1).count a
          + ((construct d vehicles orders).2).count a = orders.count a)
    ∧ ((construct d vehicles orders).1).map Route.vehicle = vehicles := by
  obtain ⟨finv, fcount, fveh⟩ := construct_fold_spec d orders
      (vehicles.map fun v => { vehicle := v, stops := [] }, [])
  have hinit : ∀ r ∈ vehicles.map fun v => ({ vehicle := v, stops := [] } : Route),
      fitsCapacity r.vehicle r.stops = true := by
    intro r hr
    obtain ⟨v, _, rfl⟩ := List.mem_map.mp hr
    simp [fitsCapacity, loadWeight, loadVolume, loadItems]
  have hinitOrders := allOrders_empty_routes vehicles
  refine ⟨finv hinit, ?_, ?_⟩
  · intro a
    have hc := fcount a
    simp only [hinitOrders, List.count_nil] at hc
    show (allOrders (orders.foldl (constructStep d)
        (vehicles.map fun v => { vehicle := v, stops := [] }, [])).1).count a
      + ((orders.foldl (constructStep d)
        (vehicles.map fun v => { vehicle := v, stops := [] }, [])).2).count a
      = orders.count a
    omega
  · show (orders.foldl (constructStep d)
        (vehicles.map fun v => { vehicle := v, stops := [] }, [])).1.map Route.vehicle
      = vehicles
    rw [fveh, List.map_map]
    have hcomp : (Route.vehicle ∘ fun v => ({ vehicle := v, stops := [] } : Route)) = id := rfl
    rw [hcomp, List.map_id]

/-! ## Optimizer: improvement-phase lemmas -/

theorem reverseSegment_perm {α : Type} (xs : List α) (a b : Nat) (hab : a ≤ b) :
    (reverseSegment xs a b).Perm xs := by
  have hdd : (xs.drop a).drop (b - a) = xs.drop b := by
    rw [List.drop_drop]
    congr 1
    omega
  have hsplit : xs = xs.take a ++ ((xs.drop a).take (b - a) ++ xs.drop b) := by
    rw [← hdd, List.take_append_drop, List.take_append_drop]
  conv_rhs => rw [hsplit]
  unfold reverseSegment
  simp only [List.append_assoc]
  exact (List.Perm.refl _).append ((List.reverse_perm _).append (List.Perm.refl _))

theorem relocate_spec (routes rs : List Route) (i j k p : Nat)
    (h : relocate routes i j k p = some rs) :
    ((∀ r ∈ routes, fitsCapacity r.vehicle r.stops = true) →
        ∀ r ∈ rs, fitsCapacity r.vehicle r.stops = true)
    ∧ (∀ a : Order, (allOrders rs).count a = (allOrders routes).count a)
    ∧ rs.map Route.vehicle = routes.map Route.vehicle := by
  cases hri : routes[i]? with
  | none => simp [relocate, hri] at h
  | some ri =>
    have hriGet : routes.get? i = some ri := by
      rw [List.get?_eq_getElem?]
      exact hri
    cases hrm : removeAt ri.stops j with
    | none => simp [relocate, hri, hrm] at h
    | some q =>
      obtain ⟨o, rest⟩ := q
      cases hrk : (updateAt routes i (setStops rest))[k]? with
      | none => simp [relocate, hri, hrm, hrk] at h
      | some rk =>
        have hrkGet : (updateAt routes i (setStops rest)).get? k = some rk := by
          rw [List.get?_eq_getElem?]
          exact hrk
        cases hfit : fitsCapacity rk.vehicle (o :: rk.stops) with
        | false => simp [relocate, hri, hrm, hrk, hfit] at h
        | true =>
          have hrs : rs = updateAt (updateAt routes i (setStops rest)) k
              (fun r => setStops (insertAt r.stops p o) r) := by
            simp [relocate, hri, hrm, hrk, hfit] at h
            exact h.symm
          subst hrs
          have hperm := removeAt_perm ri.stops j o rest hrm
          refine ⟨?_, ?_, ?_⟩
          · intro hall
            have hstep1 : ∀ r ∈ updateAt routes i (setStops rest),
                fitsCapacity r.vehicle r.stops = true := by
              apply updateAt_forall routes i (setStops rest) hall
              intro xi hxi
              rw [hriGet] at hxi
              injection hxi with hxi
              subst hxi
              exact fitsCapacity_of_perm_cons hperm (hall ri (List.get?_mem hriGet))
            apply updateAt_forall _ k _ hstep1
            intro xk hxk
            rw [hrkGet] at hxk
            injection hxk with hxk
            subst hxk
            show fitsCapacity rk.vehicle (insertAt rk.stops p o) = true
            rw [fitsCapacity_perm rk.vehicle (insertAt_perm o rk.stops p)]
            exact hfit
          · intro a
            have e1 := allOrders_updateAt_count routes i ri (setStops rest) a hriGet
            have e2 := allOrders_updateAt_count (updateAt routes i (setStops rest)) k rk
                (fun r => setStops (insertAt r.stops p o) r) a hrkGet
            have e3 := hperm.count_eq a
            have e4 := (insertAt_perm o rk.stops p).count_eq a
            simp only [setStops, List.count_cons] at e1 e2 e3 e4 ⊢
            omega
          · rw [updateAt_map_vehicle (updateAt routes i (setStops rest)) k
                (fun r => setStops (insertAt r.stops p o) r) (fun r => rfl),
              updateAt_map_vehicle routes i (setStops rest) (fun r => rfl)]

theorem twoOpt_spec (routes rs : List Route) (i a b : Nat)
    (h : twoOpt routes i a b = some rs) :
    ((∀ r ∈ routes, fitsCapacity r.vehicle r.stops = true) →
        ∀ r ∈ rs, fitsCapacity r.vehicle r.stops = true)
    ∧ (∀ x : Order, (allOrders rs).count x = (allOrders routes).count x)
    ∧ rs.map Route.vehicle = routes.map Route.vehicle := by
  cases hri : routes[i]? with
  | none => simp [twoOpt, hri] at h
  | some ri =>
    have hriGet : routes.get? i = some ri := by
      rw [List.get?_eq_getElem?]
      exact hri
    by_cases hab : a ≤ b
    · have hrs : rs = updateAt routes i fun r => setStops (reverseSegment r.stops a b) r := by
        simp [twoOpt, hri, hab] at h
        exact h.symm
      subst hrs
      refine ⟨?_, ?_, ?_⟩
      · intro hall
        apply updateAt_forall routes i _ hall
        intro xi hxi
        show fitsCapacity xi.vehicle (reverseSegment xi.stops a b) = true
        rw [fitsCapacity_perm xi.vehicle (reverseSegment_perm xi.stops a b hab)]
        exact hall xi (List.get?_mem hxi)
      · intro x
        have e1 := allOrders_updateAt_count routes i ri
            (fun r => setStops (reverseSegment r.stops a b) r) x hriGet
        have e2 := (reverseSegment_perm ri.stops a b hab).count_eq x
        simp only [setStops] at e1 ⊢
        omega
      · rw [updateAt_map_vehicle routes i
            (fun r => setStops (reverseSegment r.stops a b) r) (fun r => rfl)]
    · simp [twoOpt, hri, hab] at h

theorem improveStep_spec (d : Location → Location → Int) (routes rs : List Route)
    (h : improveStep d routes = some rs) :
    ((∀ r ∈ routes, fitsCapacity r.vehicle r.stops = true) →
        ∀ r ∈ rs, fitsCapacity r.vehicle r.stops = true)
    ∧ (∀ a : Order, (allOrders rs).count a = (allOrders routes).count a)
    ∧ rs.map Route.vehicle = routes.map Route.vehicle := by
  have hmem : rs ∈ relocCandidates routes ++ twoOptCandidates routes :=
    List.mem_of_find?_eq_some h
  rcases List.mem_append.mp hmem with hm | hm
  · simp only [relocCandidates] at hm
    obtain ⟨i, _, hm⟩ := List.mem_flatMap.mp hm
    obtain ⟨j, _, hm⟩ := List.mem_flatMap.mp hm
    obtain ⟨k, _, hm⟩ := List.mem_flatMap.mp hm
    obtain ⟨p, _, hp⟩ := List.mem_filterMap.mp hm
    exact relocate_spec routes rs i j k p hp
  · simp only [twoOptCandidates] at hm
    obtain ⟨i, _, hm⟩ := List.mem_flatMap.mp hm
    obtain ⟨a, _, hm⟩ := List.mem_flatMap.mp hm
    obtain ⟨b, _, hb⟩ := List.mem_filterMap.mp hm
    exact twoOpt_spec routes rs i a b hb

theorem improve_spec (d : Location → Location → Int) :
    ∀ (fuel : Nat) (routes : List Route),
    ((∀ r ∈ routes, fitsCapacity r.vehicle r.stops = true) →
        ∀ r ∈ improve d fuel routes, fitsCapacity r.vehicle r.stops = true)
    ∧ (∀ a : Order, (allOrders (improve d fuel routes)).count a = (allOrders routes).count a)
    ∧ (improve d fuel routes).map Route.vehicle = routes.map Route.vehicle := by
  intro fuel
  induction fuel with
  | zero => intro routes; exact ⟨fun hx => hx, fun a => rfl, rfl⟩
  | succ n ih =>
    intro routes
    cases hstep : improveStep d routes with
    | none =>
      have heq : improve d (n + 1) routes = routes := by
        simp [improve, hstep]
      rw [heq]
      exact ⟨fun hx => hx, fun a => rfl, rfl⟩
    | some routes' =>
      simp only [improve, hstep]
      obtain ⟨sinv, scount, sveh⟩ := improveStep_spec d routes routes' hstep
      obtain ⟨iinv, icount, iveh⟩ := ih routes'
      exact ⟨fun hx => iinv (sinv hx), fun a => (icount a).trans (scount a), iveh.trans sveh⟩

/-! ## Route-stop numbering lemmas -/

theorem numberStops_append :
    ∀ (xs : List Location) (i : Nat) (x : Location),
    numberStops i (xs ++ [x]) = numberStops i xs ++ [⟨i + xs.length, x⟩] := by
  intro xs
  induction xs with
  | nil => intro i x; simp [numberStops]
  | cons y ys ih =>
    intro i x
    have harith : i + 1 + ys.length = i + (ys.length + 1) := by omega
    simp only [List.cons_append, List.append_eq, numberStops, ih, List.length_cons, harith]

theorem numberStops_map_seq :
    ∀ (xs : List Location) (i : Nat),
    (numberStops i xs).map RouteStop.seq = List.range' i xs.length := by
  intro xs
  induction xs with
  | nil => intro i; rfl
  | cons y ys ih =>
    intro i
    simp [numberStops, ih, List.range'_succ]

theorem buildStops_head (r : Route) :
    (buildStops r).head? = some ⟨0, r.vehicle.depot⟩ := rfl

theorem buildStops_last (r : Route) :
    (buildStops r).getLast? = some ⟨(stopLocations r).length - 1, r.vehicle.depot⟩ := by
  unfold buildStops stopLocations
  rw [← List.cons_append, numberStops_append, List.getLast?_concat]
  simp

theorem buildStops_seq (r : Route) :
    (buildStops r).map RouteStop.seq = List.range (stopLocations r).length := by
  rw [buildStops, numberStops_map_seq, List.range_eq_range']

/-! ## Optimizer claim theorems -/

/-- C3: the capacity invariant holds for every optimizer output: for each
vehicle route, the summed weight, volume and item count of its assigned
orders are each within that vehicle's capacity. -/
theorem optimize_capacity_invariant (d : Location → Location → Int) (fuel : Nat)
    (vehicles : List Vehicle) (orders : List Order) :
    ((optimize d fuel vehicles orders).routes.all fun r =>
      fitsCapacity r.vehicle r.stops) = true := by
  rw [List.all_eq_true]
  intro r hr
  obtain ⟨cinv, _, _⟩ := construct_spec d vehicles orders
  obtain ⟨iinv, _, _⟩ := improve_spec d fuel (construct d vehicles orders).1
  exact iinv cinv r hr

/-- C4: determinism as a two-run statement — the optimizer is a pure
function of its inputs (distance matrix, iteration budget, vehicles,
orders), with no wall-clock dependence, so two runs on identical inputs
produce identical routes and identical unassigned lists. -/
theorem optimize_deterministic (d₁ d₂ : Location → Location → Int)
    (fuel₁ fuel₂ : Nat) (vehicles₁ vehicles₂ : List Vehicle)
    (orders₁ orders₂ : List Order) (hd : d₁ = d₂) (hfuel : fuel₁ = fuel₂)
    (hveh : vehicles₁ = vehicles₂) (hord : orders₁ = orders₂) :
    optimize d₁ fuel₁ vehicles₁ orders₁ = optimize d₂ fuel₂ vehicles₂ orders₂ := by
  subst hd
  subst hfuel
  subst hveh
  subst hord
  rfl

theorem optimize_deterministic_witness :
    optimize intDist 3 [demoVehicle] demoOrders
      = optimize intDist 3 [demoVehicle] demoOrders :=
  optimize_deterministic intDist intDist 3 3 [demoVehicle] [demoVehicle]
    demoOrders demoOrders rfl rfl rfl rfl

/-- C5: when demand exceeds fleet capacity the optimizer still returns (it
is a total function): the output partitions the input orders between the
routes and `unassigned`, count for count; and on the concrete scenario of
one 100 kg / 1000 L / 20-item vehicle against orders of 40, 30 and 50 kg,
exactly two orders are assigned, order 3 is the one reported in
`unassigned`, and the assigned subset is within capacity. -/
theorem optimize_partial_assignment :
    (∀ (d : Location → Location → Int) (fuel : Nat) (vehicles : List Vehicle)
        (orders : List Order) (a : Order),
      (allOrders (optimize d fuel vehicles orders).routes).count a
          + ((optimize d fuel vehicles orders).unassigned).count a = orders.count a)
    ∧ (allOrders (optimize intDist 3 [demoVehicle] demoOrders).routes).length = 2
    ∧ (optimize intDist 3 [demoVehicle] demoOrders).unassigned.map Order.id = [3]
    ∧ ((optimize intDist 3 [demoVehicle] demoOrders).routes.all fun r =>
        fitsCapacity r.vehicle r.stops) = true := by
  refine ⟨?_, by decide, by decide, by decide⟩
  intro d fuel vehicles orders a
  obtain ⟨_, ccount, _⟩ := construct_spec d vehicles orders
  obtain ⟨_, icount, _⟩ := improve_spec d fuel (construct d vehicles orders).1
  show (allOrders (improve d fuel (construct d vehicles orders).1)).count a
      + ((construct d vehicles orders).2).count a = orders.count a
  rw [icount a]
  exact ccount a

/-- C7: every route the optimizer produces is depot-anchored — its
persisted stop list starts at sequence index 0 at the route vehicle's
depot, ends at that depot, and its sequence indices are exactly
`0 .. n-1` (contiguous, no duplicates); concretely, a depot at (0,0) with
a single order at (0,1) yields the stop sequence
`[depot, (0,1), depot]`. -/
theorem optimize_routes_depot_anchored (d : Location → Location → Int) (fuel : Nat)
    (vehicles : List Vehicle) (orders : List Order) :
    (∀ r ∈ (optimize d fuel vehicles orders).routes,
      (buildStops r).head? = some ⟨0, r.vehicle.depot⟩
      ∧ (buildStops r).getLast? = some ⟨(stopLocations r).length - 1, r.vehicle.depot⟩
      ∧ (buildStops r).map RouteStop.seq = List.range (stopLocations r).length)
    ∧ (optimize intDist 3 [demoVehicle] [singleOrder]).routes.map stopLocations
        = [[⟨0, 0⟩, ⟨0, 1⟩, ⟨0, 0⟩]] := by
  constructor
  · intro r _
    exact ⟨buildStops_head r, buildStops_last r, buildStops_seq r⟩
  · decide

theorem optimize_routes_depot_anchored_witness :
    (buildStops { vehicle := demoVehicle, stops := [singleOrder] }).map RouteStop.seq
      = List.range 3 :=
  ((optimize_routes_depot_anchored intDist 3 [demoVehicle] [singleOrder]).1
    { vehicle := demoVehicle, stops := [singleOrder] } (by decide)).2.2

end Logi
